import Mathlib

set_option maxHeartbeats 1000000

/-!
Verification development for the CH-Bin / bin_x metagenomic binning core.

The Python sources are shallowly embedded as Lean definitions:

* floating point numbers are modelled as exact rationals (`ℚ`) in the
  combinatorial clustering loop, and as real numbers (`ℝ`) in the linear
  algebra (distance matrices, quadratic programs, positive-definite repair),
  where square roots genuinely appear;
* `numpy` arrays are `List`s or Mathlib `Matrix`/vector functions;
* numerical library routines that are external to the repository
  (`quadprog.solve_qp`, `cvxopt.solvers.qp`, `np.linalg.svd`,
  `np.linalg.eigvals`, `scipy.linalg.orth`) are abstracted as oracle
  parameters, with their documented contracts stated as hypotheses of the
  theorems that need them;
* Python exceptions are modelled with `Except`.

Definitions keep the names of the Python functions they embed.
-/

open Matrix
open scoped Classical

namespace BinX

/-- Insert a (key, index) pair into a list that is sorted lexicographically by
key and then by index.  Auxiliary for the deterministic model of
`np.argpartition` (which returns some `m` smallest entries; the model resolves
ties by smallest index). -/
def insertPair {α : Type} [LinearOrder α] (x : α × ℕ) : List (α × ℕ) → List (α × ℕ)
  | [] => [x]
  | y :: ys =>
    if x.1 < y.1 ∨ (x.1 = y.1 ∧ x.2 ≤ y.2) then x :: y :: ys else y :: insertPair x ys

/-- Insertion sort of (key, index) pairs, lexicographically by key then index.
Deterministic model of the selection order used by `np.argpartition`. -/
def sortPairs {α : Type} [LinearOrder α] : List (α × ℕ) → List (α × ℕ)
  | [] => []
  | x :: xs => insertPair x (sortPairs xs)

/-- Embeds lines 76-80 of `bin_x/core/clustering/algorithm.py`
(`fit_cluster`, step 01): the candidate neighbor indices for cluster `c`
when evaluating sample `i` — all indices currently labelled `c`, reduced to
the `m` nearest (by the distance-matrix row `D i`) when there are more than
`m` of them.  `bins` is the current label list (`curr_bins`). -/
def clusterCandidates (D : ℕ → ℕ → ℚ) (i m : ℕ) (bins : List ℤ) (c : ℕ) : List ℕ :=
  let cluster_point_idx := (List.range bins.length).filter (fun j => bins.getD j 0 = (c : ℤ))
  if m < cluster_point_idx.length then
    ((sortPairs (cluster_point_idx.map (fun j => (D i j, j)))).take m).map Prod.snd
  else cluster_point_idx

/-- Embeds lines 67-87 of `bin_x/core/clustering/algorithm.py` (`fit_cluster`,
inner loop body): evaluate sample `i`.  The sample is temporarily marked
unassigned, every cluster `c ∈ [0, K)` is scanned, the distance from the
sample to the polytope of `c`'s candidate neighbors (`_calculate_distance`,
abstracted as the oracle `d`) is tracked (`min_distance` starts at `np.inf`,
modelled by `⊤ : WithTop ℚ`; `min_cluster` starts at the sample's current
label), and finally the sample is assigned to the minimum-distance cluster. -/
def evalPoint (D : ℕ → ℕ → ℚ) (d : ℕ → List ℕ → ℚ) (K m : ℕ)
    (bins : List ℤ) (i : ℕ) : List ℤ :=
  let min_cluster0 : ℤ := bins.getD i (-1)
  let bins1 := bins.set i (-1)
  let r := (List.range K).foldl
    (fun (acc : WithTop ℚ × ℤ) c =>
      if (d i (clusterCandidates D i m bins1 c) : WithTop ℚ) < acc.1 then
        ((d i (clusterCandidates D i m bins1 c) : WithTop ℚ), (c : ℤ))
      else acc)
    (⊤, min_cluster0)
  bins1.set i r.2

/-- One full pass of `fit_cluster`: evaluate, sequentially, every sample index
in the visit order `order` (the code visits `np.random.permutation` of the
points to assign; the order is a parameter here). -/
def doPass (D : ℕ → ℕ → ℚ) (d : ℕ → List ℕ → ℚ) (K m : ℕ)
    (order : List ℕ) (bins : List ℤ) : List ℤ :=
  order.foldl (fun b i => evalPoint D d K m b i) bins

/-- Embeds line 55 of `bin_x/core/clustering/algorithm.py`:
`points_to_assign = np.where(curr_bins == -1)[0]`, computed once at entry. -/
def pointsToAssign (bins : List ℤ) : List ℕ :=
  (List.range bins.length).filter (fun j => bins.getD j 0 = -1)

/-- Embeds the outer iteration of `fit_cluster` (lines 59-101): run up to
`fuel` passes starting at pass index `i`; after each pass compare the new
label list with the label list the pass started from and stop early if they
are equal.  Returns the final labels, the number of passes executed, and
whether the `break` (early convergence) was taken.  The number of passes and
the convergence flag are observable in the source through its progress
output. -/
def fitLoop (D : ℕ → ℕ → ℚ) (d : ℕ → List ℕ → ℚ) (K m : ℕ)
    (orders : ℕ → List ℕ) : ℕ → ℕ → List ℤ → List ℤ × ℕ × Bool
  | 0, i, bins => (bins, i, false)
  | fuel + 1, i, bins =>
    let newBins := doPass D d K m (orders i) bins
    if newBins = bins then (newBins, i + 1, true)
    else fitLoop D d K m orders fuel (i + 1) newBins

/-- Embeds `fit_cluster` of `bin_x/core/clustering/algorithm.py` with its
instrumentation: `permO k l` models `np.random.permutation(l)` at pass `k`
(the randomness source is a parameter); the list of points to reassign is
computed once from the initial labels.  Returns (labels, passes, converged). -/
def fitClusterRun (D : ℕ → ℕ → ℚ) (d : ℕ → List ℕ → ℚ) (K m maxIterations : ℕ)
    (permO : ℕ → List ℕ → List ℕ) (initialBins : List ℤ) : List ℤ × ℕ × Bool :=
  fitLoop D d K m (fun k => permO k (pointsToAssign initialBins)) maxIterations 0 initialBins

/-- Embeds `fit_cluster` of `bin_x/core/clustering/algorithm.py`: the final
label list it returns. -/
def fit_cluster (D : ℕ → ℕ → ℚ) (d : ℕ → List ℕ → ℚ) (K m maxIterations : ℕ)
    (permO : ℕ → List ℕ → List ℕ) (initialBins : List ℤ) : List ℤ :=
  (fitClusterRun D d K m maxIterations permO initialBins).1

/-- The label list after `k` uninterrupted passes, starting from `bins` at
pass index `i0`.  Reference trajectory for stating the termination theorem. -/
def passIterFrom (D : ℕ → ℕ → ℚ) (d : ℕ → List ℕ → ℚ) (K m : ℕ)
    (orders : ℕ → List ℕ) (i0 : ℕ) (bins : List ℤ) : ℕ → List ℤ
  | 0 => bins
  | k + 1 => doPass D d K m (orders (i0 + k)) (passIterFrom D d K m orders i0 bins k)

/-- Embeds `find_m_nearest_idx` of `bin_x/core/clustering/distance_matrix.py`.
`N` is the number of rows of the distance matrix `D`.  The code builds
`dist_i` as `np.inf` everywhere, overwrites the entries of `selected_idx`
with the distance-matrix row of `p_i`, resets `dist_i[p_i]` to `np.inf`
(`⊤ : WithTop ℚ` models `np.inf`), and takes the indices of the `m` smallest
entries via `np.argpartition` (deterministic model: sort by value then index,
take `m`).  Guard branches: an empty `selected_idx` yields an empty result
(`np.zeros(0)`); fewer than `m` selected indices are returned unchanged. -/
def find_m_nearest_idx (m p_i N : ℕ) (D : ℕ → ℕ → ℚ) (selected_idx : List ℕ) : List ℕ :=
  if selected_idx.length = 0 then []
  else if selected_idx.length < m then selected_idx
  else
    ((sortPairs ((List.range N).map
        (fun j => ((if j = p_i then (⊤ : WithTop ℚ)
          else if j ∈ selected_idx then (D p_i j : WithTop ℚ) else ⊤), j)))).take m).map
      Prod.snd

end BinX

namespace ChBin

/-- Embeds `find_nearest_from_cluster` of
`ch_bin/core/clustering/distance_matrix.py`: all indices currently labelled
`c` when there are at most `m` of them, otherwise the `m` of them nearest to
the query sample by its distance row (`np.argpartition`, deterministic model
as in `BinX.sortPairs`). -/
def find_nearest_from_cluster (c : ℕ) (curr_bins : List ℤ) (distance_row : ℕ → ℚ)
    (m : ℕ) : List ℕ :=
  let cluster_point_idx :=
    (List.range curr_bins.length).filter (fun j => curr_bins.getD j 0 = (c : ℤ))
  if cluster_point_idx.length ≤ m then cluster_point_idx
  else
    ((BinX.sortPairs (cluster_point_idx.map (fun j => (distance_row j, j)))).take m).map
      Prod.snd

end ChBin

namespace Cli

/-- Embeds `np.bincount` as used in `perform_clustering`
(`bin_x/cli/clustering.py` line 99, `ch_bin/cli/clustering.py` line 89):
occurrence counts of `0, 1, …, max xs` (empty for an empty input). -/
def bincount : List ℕ → List ℕ
  | [] => []
  | x :: rest =>
    (List.range ((x :: rest).foldr max 0 + 1)).map (fun v => (x :: rest).count v)

/-- Tail of the `np.argmax` scan: `best` is the running maximum value,
`bestI` its (first) position, `cur` the position of the next element. -/
def argmaxAux : List ℕ → ℕ → ℕ → ℕ → ℕ
  | [], _, _, bestI => bestI
  | v :: rest, best, cur, bestI =>
    if best < v then argmaxAux rest v (cur + 1) cur else argmaxAux rest best (cur + 1) bestI

/-- Embeds `np.argmax`: the first position of the maximum value. -/
def argmax : List ℕ → ℕ
  | [] => 0
  | v :: rest => argmaxAux rest v 1 0

/-- Embeds the aggregation lambda `lambda x: np.bincount(x).argmax()` of
`perform_clustering`: the elected bin for one parent's fragment labels. -/
def electBin (xs : List ℕ) : ℕ := argmax (bincount xs)

/-- Embeds the `groupby("PARENT_NAME").BIN.apply(...)` aggregation of
`perform_clustering`: `rows` are (parent id, fragment label) pairs and the
result is the elected label of parent `p`'s fragments. -/
def aggregateBin (rows : List (ℕ × ℕ)) (p : ℕ) : ℕ :=
  electBin ((rows.filter (fun r => r.1 = p)).map Prod.snd)

end Cli

/-! Real-vector side: distance matrices, quadratic programs, hull distances,
positive-definite repair.  Floats are modelled as real numbers. -/

/-- Real vector of dimension `n` (a numpy 1-D array). -/
abbrev Vec (n : ℕ) := Fin n → ℝ

/-- Real matrix (a numpy 2-D array, row-major indexing `M i j`). -/
abbrev Mat (m n : ℕ) := Matrix (Fin m) (Fin n) ℝ

/-- Euclidean norm `np.linalg.norm`: square root of the sum of squares. -/
noncomputable def euclNorm {n : ℕ} (v : Vec n) : ℝ :=
  Real.sqrt (∑ t, v t ^ 2)

/-- A vector as a point of `EuclideanSpace`, to compare the embedded distance
computations with Mathlib's Euclidean distance. -/
noncomputable def asEuclidean {n : ℕ} (v : Vec n) : EuclideanSpace ℝ (Fin n) :=
  (WithLp.equiv 2 (Fin n → ℝ)).symm v

namespace ChBin

/-- Embeds `create_in_mem_distance_matrix` of
`ch_bin/core/clustering/distance_matrix.py` (and the body of
`create_distance_matrix`, which fills the same values into a memory-mapped
file): `cdist(arr, arr, metric="euclidean")`, the matrix whose `(i, j)` entry
is the Euclidean distance from sample `i` to sample `j`. -/
noncomputable def create_in_mem_distance_matrix {N dd : ℕ} (arr : Fin N → Vec dd) :
    Matrix (Fin N) (Fin N) ℝ :=
  fun i j => Real.sqrt (∑ t, (arr i t - arr j t) ^ 2)

end ChBin

namespace BinX

/-- Embeds `create_distance_matrix` of
`bin_x/core/clustering/distance_matrix.py`: the same
`cdist(arr, arr, metric="euclidean")` computation. -/
noncomputable def create_distance_matrix {N dd : ℕ} (arr : Fin N → Vec dd) :
    Matrix (Fin N) (Fin N) ℝ :=
  ChBin.create_in_mem_distance_matrix arr

/-- The failure mode of a QP backend: both `quadprog.solve_qp` and the
`_cvxopt_solve_qp` wrapper signal solver failure by raising `ValueError`
(carrying a message). -/
inductive SolverFailure : Type where
  | valueError : String → SolverFailure

/-- Errors escaping `solve_qp`: a solver failure from the backends, or the
`NotImplementedError` raised for an unknown solver name. -/
inductive QPError : Type where
  | solverFailure : SolverFailure → QPError
  | notImplementedError : String → QPError

/-- A quadratic program as passed to `solve_qp`
(`bin_x/core/clustering/solve_qp.py`): minimize `(1/2) xᵀPx + qᵀx` subject to
`Gx ≤ h` (with `g` inequality rows) and `Ax = b` (optional, `e` equality
rows); `n` optimization variables. -/
structure QPInput (n g e : ℕ) : Type where
  matP : Mat n n
  vecQ : Vec n
  matG : Mat g n
  vecH : Vec g
  matA : Option (Mat e n)
  vecB : Option (Vec e)

/-- The objective of the quadratic program, as documented in the module
docstring of `bin_x/core/clustering/solve_qp.py`:
`(1/2) xᵀPx + qᵀx`. -/
noncomputable def qpObjective {n g e : ℕ} (inp : QPInput n g e) (x : Vec n) : ℝ :=
  (1 / 2) * Matrix.dotProduct x (inp.matP.mulVec x) + Matrix.dotProduct inp.vecQ x

/-- Embeds `solve_qp` of `bin_x/core/clustering/solve_qp.py` (lines 100-136;
`ch_bin/core/clustering/solve_qp.py` lines 96-132 implement the identical
policy).  The numeric backends `_quadprog_solve_qp` and `_cvxopt_solve_qp`
are the oracle parameters `qpB` and `cvxB`; they either return a solution
vector or fail with the `ValueError` that the wrappers raise on solver
failure.  Requesting `"quadprog"` tries `qpB` and falls back to `cvxB` on
failure (`except ValueError`); a failure of `cvxB` then propagates.
Requesting `"cvxopt"` calls `cvxB` directly, with no fallback.  Any other
name raises `NotImplementedError`. -/
def solve_qp {n g e : ℕ} (qpB cvxB : QPInput n g e → Except SolverFailure (Vec n))
    (inp : QPInput n g e) (solver : String) : Except QPError (Vec n) :=
  if solver = "quadprog" then
    match qpB inp with
    | .ok v => .ok v
    | .error _ => (cvxB inp).mapError QPError.solverFailure
  else if solver = "cvxopt" then (cvxB inp).mapError QPError.solverFailure
  else .error (.notImplementedError solver)

/-- The quadratic program built by `convex_hull_distance`
(`bin_x/core/clustering/hull_distance.py` lines 16-31,
`ch_bin/core/clustering/hull_distance.py` lines 17-32): with `mat_x :=
points.T` (reference points as columns) and `mat_x_t := points`, the cost is
`mat_p = 2 * mat_x_t @ mat_x`, the linear term `vec_q = -2 * query @ mat_x`,
the equality constraint is `sum = 1` (`mat_a` all ones, `vec_b = 1`) and the
inequality constraints `-I α ≤ 0` keep all coefficients non-negative. -/
noncomputable def convexQPInput {n dd : ℕ} (query : Vec dd) (points : Mat n dd) :
    QPInput n n 1 :=
  let mat_x : Mat dd n := pointsᵀ
  let mat_x_t : Mat n dd := points
  ⟨(2 : ℝ) • (mat_x_t * mat_x), (-2 : ℝ) • Matrix.vecMul query mat_x,
    -(1 : Mat n n), 0, some (fun _ _ => 1), some (fun _ => 1)⟩

/-- Embeds `convex_hull_distance` of `bin_x/core/clustering/hull_distance.py`
(identical in `ch_bin/core/clustering/hull_distance.py`): solve the QP of
`convexQPInput` and return the Euclidean norm of
`proj - query` with `proj = alpha @ points` (a raised solver error
propagates). -/
noncomputable def convex_hull_distance {n dd : ℕ} (query : Vec dd) (points : Mat n dd)
    (qpB cvxB : QPInput n n 1 → Except SolverFailure (Vec n)) (solver : String) :
    Except QPError ℝ :=
  match solve_qp qpB cvxB (convexQPInput query points) solver with
  | .ok alpha => .ok (euclNorm (Matrix.vecMul alpha points - query))
  | .error err => .error err

/-- Semantic model of `is_positive_definite` of
`bin_x/core/clustering/positive_def.py`: the code attempts
`np.linalg.cholesky(mat_a)` and returns whether it succeeded; for the
symmetric real matrices this function is applied to, a Cholesky factorization
exists exactly when the matrix is positive definite. -/
def is_positive_definite {k : ℕ} (mat_a : Mat k k) : Prop :=
  mat_a.PosDef

/-- Embeds the `while not is_positive_definite(mat_a3)` loop of
`nearest_positive_definite` (lines 42-46 of
`bin_x/core/clustering/positive_def.py`): repeatedly add
`(-mineig * k**2 + spacing) * I`, incrementing `k`, until the matrix is
positive definite.  `mineigO` models `np.min(np.real(np.linalg.eigvals(·)))`;
the while loop is given as fuel-indexed iteration (the termination theorem
shows one unit of fuel suffices in exact arithmetic). -/
noncomputable def npdLoop {k : ℕ} (mineigO : Mat k k → ℝ) (spacing : ℝ) :
    ℕ → ℕ → Mat k k → Mat k k
  | 0, _, mat_a3 => mat_a3
  | fuel + 1, kk, mat_a3 =>
    if is_positive_definite mat_a3 then mat_a3
    else npdLoop mineigO spacing fuel (kk + 1)
      (mat_a3 + (-(mineigO mat_a3) * (kk : ℝ) ^ 2 + spacing) • (1 : Mat k k))

/-- Embeds `nearest_positive_definite` of
`bin_x/core/clustering/positive_def.py`: symmetrize (`mat_b`), apply the
SVD-based Higham correction (`np.linalg.svd` is the oracle `svdO`, returning
the singular values `s` and the row-basis `mat_v`; `mat_h = Vᵀ diag(s) V`),
symmetrize again (`mat_a3`), return it if already positive definite, and
otherwise run the perturbation loop with `spacing = np.spacing(norm(mat_a))`
(the oracle `spacingO`) starting at `k = 1`. -/
noncomputable def nearest_positive_definite {k : ℕ}
    (svdO : Mat k k → Vec k × Mat k k) (mineigO : Mat k k → ℝ)
    (spacingO : Mat k k → ℝ) (fuel : ℕ) (mat_a : Mat k k) : Mat k k :=
  let mat_b := ((1 : ℝ) / 2) • (mat_a + mat_aᵀ)
  let s := (svdO mat_b).1
  let mat_v := (svdO mat_b).2
  let mat_h := mat_vᵀ * Matrix.diagonal s * mat_v
  let mat_a2 := ((1 : ℝ) / 2) • (mat_b + mat_h)
  let mat_a3 := ((1 : ℝ) / 2) • (mat_a2 + mat_a2ᵀ)
  if is_positive_definite mat_a3 then mat_a3
  else npdLoop mineigO (spacingO mat_a) fuel 1 mat_a3

end BinX

namespace ChBin

/-- The QP built by `affine_hull_distance_qp`
(`ch_bin/core/clustering/hull_distance.py` lines 48-62): same cost matrix
`2·XᵀX`, linear term `-2·Xᵀx` and sum-to-one equality constraint as the
convex case, but no inequality constraints (`mat_g = np.zeros((0, n))`,
`vec_h = np.zeros(0)`). -/
noncomputable def affineQPInput {n dd : ℕ} (query : Vec dd) (points : Mat n dd) :
    BinX.QPInput n 0 1 :=
  let mat_x : Mat dd n := pointsᵀ
  let mat_x_t : Mat n dd := points
  ⟨(2 : ℝ) • (mat_x_t * mat_x), (-2 : ℝ) • Matrix.vecMul query mat_x,
    0, 0, some (fun _ _ => 1), some (fun _ => 1)⟩

/-- Embeds `affine_hull_distance_qp` of
`ch_bin/core/clustering/hull_distance.py`: solve the QP of `affineQPInput`
and return the Euclidean norm of `alpha @ points - query`. -/
noncomputable def affine_hull_distance_qp {n dd : ℕ} (query : Vec dd) (points : Mat n dd)
    (qpB cvxB : BinX.QPInput n 0 1 → Except BinX.SolverFailure (Vec n)) (solver : String) :
    Except BinX.QPError ℝ :=
  match BinX.solve_qp qpB cvxB (affineQPInput query points) solver with
  | .ok alpha => .ok (euclNorm (Matrix.vecMul alpha points - query))
  | .error err => .error err

/-- Embeds `affine_hull_distance` of `ch_bin/core/clustering/hull_distance.py`
(lines 69-87), the direct orthogonal-projection route: `mean_vec` is the
column-wise mean of the reference points, `basis` is the output of
`scipy.linalg.orth(relative_vecs.T)` (the library routine is an oracle
parameter; its contract — orthonormal columns spanning the column space of
the centered points — is a hypothesis of the equivalence theorem),
`ortho_proj_op = basis @ inv(basis.T @ basis) @ basis.T`, and the distance is
the Euclidean norm of `(I - ortho_proj_op) @ (query - mean_vec)`. -/
noncomputable def affine_hull_distance {n dd r : ℕ} (query : Vec dd) (points : Mat n dd)
    (basis : Mat dd r) : ℝ :=
  let mean_vec : Vec dd := fun t => (∑ i, points i t) / n
  let ortho_proj_op : Mat dd dd := basis * (basisᵀ * basis)⁻¹ * basisᵀ
  let dist_vec : Vec dd := ((1 : Mat dd dd) - ortho_proj_op).mulVec (query - mean_vec)
  euclNorm dist_vec

end ChBin


/-! ### Theorems -/

namespace BinX

/-- If no list element beats the accumulator, the minimum-tracking fold keeps
the accumulator. -/
theorem foldl_min_keep (dv : ℕ → ℚ) (L : List ℕ) :
    ∀ acc : WithTop ℚ × ℤ, (∀ c ∈ L, ¬((dv c : WithTop ℚ) < acc.1)) →
    L.foldl
      (fun (acc : WithTop ℚ × ℤ) c =>
        if (dv c : WithTop ℚ) < acc.1 then ((dv c : WithTop ℚ), (c : ℤ)) else acc)
      acc = acc := by
  induction L with
  | nil => intro acc _; rfl
  | cons c rest ih =>
    intro acc h
    have hc : ¬((dv c : WithTop ℚ) < acc.1) := h c (List.mem_cons_self c rest)
    simp only [List.foldl_cons, if_neg hc]
    exact ih acc (fun c2 hc2 => h c2 (List.mem_cons_of_mem c hc2))

/-- If `cstar` occurs in the list and strictly beats every other list element,
and beats the starting accumulator, the minimum-tracking fold selects it. -/
theorem foldl_min_select (dv : ℕ → ℚ) (L : List ℕ) (cstar : ℕ) :
    ∀ acc : WithTop ℚ × ℤ, cstar ∈ L →
    (∀ c ∈ L, c ≠ cstar → dv cstar < dv c) →
    ((dv cstar : WithTop ℚ) < acc.1) →
    L.foldl
      (fun (acc : WithTop ℚ × ℤ) c =>
        if (dv c : WithTop ℚ) < acc.1 then ((dv c : WithTop ℚ), (c : ℤ)) else acc)
      acc = ((dv cstar : WithTop ℚ), (cstar : ℤ)) := by
  induction L with
  | nil => intro acc hmem _ _; exact absurd hmem (List.not_mem_nil cstar)
  | cons c rest ih =>
    intro acc hmem hlt hacc
    by_cases hc : c = cstar
    · subst hc
      simp only [List.foldl_cons, if_pos hacc]
      refine foldl_min_keep dv rest _ ?_
      intro c2 hc2
      by_cases h2 : c2 = c
      · subst h2; exact lt_irrefl _
      · have hx := hlt c2 (List.mem_cons_of_mem c hc2) h2
        simp only [WithTop.coe_lt_coe]
        exact not_lt_of_gt hx
    · have hmem2 : cstar ∈ rest := by
        rcases List.mem_cons.mp hmem with h | h
        · exact absurd h.symm hc
        · exact h
      have hltc : dv cstar < dv c := hlt c (List.mem_cons_self c rest) hc
      simp only [List.foldl_cons]
      by_cases hcond : (dv c : WithTop ℚ) < acc.1
      · rw [if_pos hcond]
        refine ih _ hmem2 (fun c2 h2 hne => hlt c2 (List.mem_cons_of_mem c h2) hne) ?_
        simpa only [WithTop.coe_lt_coe] using hltc
      · rw [if_neg hcond]
        exact ih _ hmem2 (fun c2 h2 hne => hlt c2 (List.mem_cons_of_mem c h2) hne) hacc

end BinX

/-- C1 counterexample: in `fit_cluster` of `bin_x/core/clustering/algorithm.py`
an empty target cluster is NOT skipped.  Concrete instance: labels `[0, 0]`,
`K = 2`, `m = 15`, evaluating sample `1`.  After the sample is temporarily
unassigned the labels are `[0, -1]`, so cluster `1` has zero members (first
conjunct).  Yet with a hull-distance oracle that returns `0` on the empty
reference set (and `1` otherwise) the sample is assigned to the empty
cluster `1` (second conjunct): the hull-distance computation IS invoked with
zero reference points and its value participates in the minimum-tracking.
With an oracle differing only on the empty set, the result differs (third
conjunct), so the empty cluster is not treated as infinitely distant. -/
theorem empty_cluster_is_not_skipped :
    ((List.range 2).filter (fun j => ([0, -1] : List ℤ).getD j 0 = (1 : ℤ)) = []) ∧
    BinX.evalPoint (fun _ _ => 0) (fun _ l => if l = [] then 0 else 1) 2 15 [0, 0] 1 = [0, 1] ∧
    BinX.evalPoint (fun _ _ => 0) (fun _ l => if l = [] then 100 else 1) 2 15 [0, 0] 1
      = [0, 0] := by
  refine ⟨by decide, by decide, by decide⟩

namespace BinX

/-- C1 (amended): during a cluster-assignment pass, a cluster `c < K` with
zero member points is not skipped: its candidate neighbor list is empty, the
hull-distance oracle is applied to that empty list, and its value takes part
in the minimum-tracking like any other cluster's — in particular, whenever
that value is strictly smaller than every other cluster's distance, the point
is assigned to the empty cluster `c`. -/
theorem evalPoint_empty_cluster (D : ℕ → ℕ → ℚ) (d : ℕ → List ℕ → ℚ) (K m : ℕ)
    (bins : List ℤ) (i c : ℕ) (hcK : c < K)
    (hempty : (List.range (bins.set i (-1)).length).filter
        (fun j => (bins.set i (-1)).getD j 0 = (c : ℤ)) = []) :
    clusterCandidates D i m (bins.set i (-1)) c = [] ∧
    ((∀ c2, c2 < K → c2 ≠ c →
        d i [] < d i (clusterCandidates D i m (bins.set i (-1)) c2)) →
      evalPoint D d K m bins i = (bins.set i (-1)).set i (c : ℤ)) := by
  have hcand : clusterCandidates D i m (bins.set i (-1)) c = [] := by
    unfold clusterCandidates
    rw [hempty]
    simp
  refine ⟨hcand, ?_⟩
  intro hmin
  have key := foldl_min_select
      (fun c2 => d i (clusterCandidates D i m (bins.set i (-1)) c2))
      (List.range K) c (⊤, bins.getD i (-1)) (List.mem_range.mpr hcK)
      (fun c2 hc2 hne => by
        have h2 := hmin c2 (List.mem_range.mp hc2) hne
        simpa only [hcand] using h2)
      (by simp)
  show (bins.set i (-1)).set i
      (((List.range K).foldl
        (fun (acc : WithTop ℚ × ℤ) c2 =>
          if (d i (clusterCandidates D i m (bins.set i (-1)) c2) : WithTop ℚ) < acc.1 then
            ((d i (clusterCandidates D i m (bins.set i (-1)) c2) : WithTop ℚ), (c2 : ℤ))
          else acc)
        (⊤, bins.getD i (-1))).2) = (bins.set i (-1)).set i (c : ℤ)
  rw [key]

/-- Witness for `evalPoint_empty_cluster` at a concrete input: labels
`[0, 0]`, evaluating sample `1`; cluster `1` is empty after the temporary
unassignment, the oracle gives the empty reference set distance `0` and every
non-empty set distance `1`, and the sample indeed ends up in cluster `1`. -/
theorem evalPoint_empty_cluster_witness :
    (1 : ℕ) < 2 ∧
    clusterCandidates (fun _ _ => 0) 1 15 (([0, 0] : List ℤ).set 1 (-1)) 1 = [] ∧
    evalPoint (fun _ _ => 0) (fun _ l => if l = [] then 0 else 1) 2 15 [0, 0] 1
      = (([0, 0] : List ℤ).set 1 (-1)).set 1 (1 : ℤ) := by
  have h := evalPoint_empty_cluster (fun _ _ => 0)
      (fun _ l => if l = [] then 0 else 1) 2 15 [0, 0] 1 1 (by decide) (by decide)
  exact ⟨by decide, h.1, h.2 (by decide)⟩

end BinX

namespace BinX

/-- Shifting the uninterrupted pass trajectory by one pass. -/
theorem passIterFrom_shift (D : ℕ → ℕ → ℚ) (d : ℕ → List ℕ → ℚ) (K m : ℕ)
    (orders : ℕ → List ℕ) (i0 : ℕ) (bins : List ℤ) (k : ℕ) :
    passIterFrom D d K m orders i0 bins (k + 1)
      = passIterFrom D d K m orders (i0 + 1) (doPass D d K m (orders i0) bins) k := by
  induction k with
  | zero => simp [passIterFrom]
  | succ k ih =>
    have harith : i0 + (k + 1) = (i0 + 1) + k := by omega
    calc passIterFrom D d K m orders i0 bins (k + 1 + 1)
        = doPass D d K m (orders (i0 + (k + 1)))
            (passIterFrom D d K m orders i0 bins (k + 1)) := rfl
      _ = doPass D d K m (orders ((i0 + 1) + k))
            (passIterFrom D d K m orders (i0 + 1) (doPass D d K m (orders i0) bins) k) := by
          rw [harith, ih]
      _ = passIterFrom D d K m orders (i0 + 1) (doPass D d K m (orders i0) bins) (k + 1) := rfl

/-- The loop executes at most `i0 + fuel` passes when started at pass `i0`. -/
theorem fitLoop_passes_le (D : ℕ → ℕ → ℚ) (d : ℕ → List ℕ → ℚ) (K m : ℕ)
    (orders : ℕ → List ℕ) (fuel : ℕ) :
    ∀ i0 bins, (fitLoop D d K m orders fuel i0 bins).2.1 ≤ i0 + fuel := by
  induction fuel with
  | zero => intro i0 bins; simp [fitLoop]
  | succ fuel ih =>
    intro i0 bins
    show (if doPass D d K m (orders i0) bins = bins
        then (doPass D d K m (orders i0) bins, i0 + 1, true)
        else fitLoop D d K m orders fuel (i0 + 1) (doPass D d K m (orders i0) bins)).2.1
      ≤ i0 + (fuel + 1)
    by_cases h : doPass D d K m (orders i0) bins = bins
    · rw [if_pos h]; show i0 + 1 ≤ i0 + (fuel + 1); omega
    · rw [if_neg h]
      have := ih (i0 + 1) (doPass D d K m (orders i0) bins)
      omega

/-- The loop breaks early exactly when some pass within the fuel budget leaves
the labels it started from unchanged. -/
theorem fitLoop_converged_iff (D : ℕ → ℕ → ℚ) (d : ℕ → List ℕ → ℚ) (K m : ℕ)
    (orders : ℕ → List ℕ) (fuel : ℕ) :
    ∀ i0 bins, (fitLoop D d K m orders fuel i0 bins).2.2 = true ↔
      ∃ k, k < fuel ∧ doPass D d K m (orders (i0 + k)) (passIterFrom D d K m orders i0 bins k)
        = passIterFrom D d K m orders i0 bins k := by
  induction fuel with
  | zero =>
    intro i0 bins
    simp [fitLoop]
  | succ fuel ih =>
    intro i0 bins
    show (if doPass D d K m (orders i0) bins = bins
        then (doPass D d K m (orders i0) bins, i0 + 1, true)
        else fitLoop D d K m orders fuel (i0 + 1) (doPass D d K m (orders i0) bins)).2.2 = true
      ↔ _
    by_cases h : doPass D d K m (orders i0) bins = bins
    · rw [if_pos h]
      simp only [true_iff]
      exact ⟨0, Nat.succ_pos fuel, by simpa [passIterFrom] using h⟩
    · rw [if_neg h]
      rw [ih (i0 + 1) (doPass D d K m (orders i0) bins)]
      constructor
      · rintro ⟨k, hk, he⟩
        refine ⟨k + 1, by omega, ?_⟩
        rw [passIterFrom_shift]
        have harith : i0 + (k + 1) = (i0 + 1) + k := by omega
        rw [harith]
        exact he
      · rintro ⟨k, hk, he⟩
        cases k with
        | zero =>
          simp only [Nat.add_zero, passIterFrom] at he
          exact absurd he h
        | succ k =>
          refine ⟨k, by omega, ?_⟩
          rw [passIterFrom_shift] at he
          have harith : i0 + (k + 1) = (i0 + 1) + k := by omega
          rw [harith] at he
          exact he

/-- When the loop exhausts its fuel without converging, it returns the labels
after exactly `fuel` uninterrupted passes. -/
theorem fitLoop_cap (D : ℕ → ℕ → ℚ) (d : ℕ → List ℕ → ℚ) (K m : ℕ)
    (orders : ℕ → List ℕ) (fuel : ℕ) :
    ∀ i0 bins, (fitLoop D d K m orders fuel i0 bins).2.2 = false →
      (fitLoop D d K m orders fuel i0 bins).1 = passIterFrom D d K m orders i0 bins fuel := by
  induction fuel with
  | zero => intro i0 bins _; rfl
  | succ fuel ih =>
    intro i0 bins hc
    revert hc
    show (if doPass D d K m (orders i0) bins = bins
        then (doPass D d K m (orders i0) bins, i0 + 1, true)
        else fitLoop D d K m orders fuel (i0 + 1) (doPass D d K m (orders i0) bins)).2.2 = false
      → (if doPass D d K m (orders i0) bins = bins
        then (doPass D d K m (orders i0) bins, i0 + 1, true)
        else fitLoop D d K m orders fuel (i0 + 1) (doPass D d K m (orders i0) bins)).1
        = passIterFrom D d K m orders i0 bins (fuel + 1)
    by_cases h : doPass D d K m (orders i0) bins = bins
    · rw [if_pos h]; intro hc; exact absurd hc (by simp)
    · rw [if_neg h]
      intro hc
      rw [ih (i0 + 1) (doPass D d K m (orders i0) bins) hc, passIterFrom_shift]

end BinX

/-- C5: for every input, `fit_cluster` of `bin_x/core/clustering/algorithm.py`
terminates after at most `max_iterations` passes; it terminates early (takes
the `break`) exactly when some pass within the iteration budget leaves the
label vector identical to the label vector that pass started from; and when
the cap is reached without such a pass it returns the labels current after
`max_iterations` passes. -/
theorem fit_cluster_terminates (D : ℕ → ℕ → ℚ) (d : ℕ → List ℕ → ℚ)
    (K m maxIterations : ℕ) (permO : ℕ → List ℕ → List ℕ) (initialBins : List ℤ) :
    (BinX.fitClusterRun D d K m maxIterations permO initialBins).2.1 ≤ maxIterations ∧
    ((BinX.fitClusterRun D d K m maxIterations permO initialBins).2.2 = true ↔
      ∃ k, k < maxIterations ∧
        BinX.doPass D d K m (permO k (BinX.pointsToAssign initialBins))
            (BinX.passIterFrom D d K m (fun k2 => permO k2 (BinX.pointsToAssign initialBins))
              0 initialBins k)
          = BinX.passIterFrom D d K m (fun k2 => permO k2 (BinX.pointsToAssign initialBins))
              0 initialBins k) ∧
    ((BinX.fitClusterRun D d K m maxIterations permO initialBins).2.2 = false →
      BinX.fit_cluster D d K m maxIterations permO initialBins
        = BinX.passIterFrom D d K m (fun k2 => permO k2 (BinX.pointsToAssign initialBins))
            0 initialBins maxIterations) := by
  refine ⟨?_, ?_, ?_⟩
  · simpa using BinX.fitLoop_passes_le D d K m
      (fun k => permO k (BinX.pointsToAssign initialBins)) maxIterations 0 initialBins
  · have h := BinX.fitLoop_converged_iff D d K m
      (fun k => permO k (BinX.pointsToAssign initialBins)) maxIterations 0 initialBins
    simpa using h
  · intro hc
    have h := BinX.fitLoop_cap D d K m
      (fun k => permO k (BinX.pointsToAssign initialBins)) maxIterations 0 initialBins hc
    simpa using h

/-- Witness for `fit_cluster_terminates` at a concrete input: one sample,
initially unassigned, one cluster, `max_iterations = 1`.  The single pass
changes the label, so the loop is not converged (cap reached), and the
returned labels are the labels after one pass. -/
theorem fit_cluster_terminates_witness :
    (BinX.fitClusterRun (fun _ _ => 0) (fun _ _ => 0) 1 1 1 (fun _ l => l) [-1]).2.2 = false ∧
    BinX.fit_cluster (fun _ _ => 0) (fun _ _ => 0) 1 1 1 (fun _ l => l) [-1]
      = BinX.passIterFrom (fun _ _ => 0) (fun _ _ => 0) 1 1
          (fun k2 => (fun _ l => l) k2 (BinX.pointsToAssign [-1])) 0 [-1] 1 :=
  ⟨by decide,
    (fit_cluster_terminates (fun _ _ => 0) (fun _ _ => 0) 1 1 1 (fun _ l => l) [-1]).2.2
      (by decide)⟩

namespace BinX

/-- Evaluating sample `j` only changes the label list at index `j`. -/
theorem evalPoint_getD_ne (D : ℕ → ℕ → ℚ) (d : ℕ → List ℕ → ℚ) (K m : ℕ)
    (bins : List ℤ) (j i : ℕ) (hij : j ≠ i) :
    (evalPoint D d K m bins j).getD i (-1) = bins.getD i (-1) := by
  show ((bins.set j (-1)).set j _).getD i (-1) = bins.getD i (-1)
  rw [List.getD_eq_getElem?_getD, List.getElem?_set_ne hij, List.getElem?_set_ne hij,
    ← List.getD_eq_getElem?_getD]

/-- A pass that never visits index `i` leaves the label at `i` unchanged. -/
theorem doPass_getD_ne (D : ℕ → ℕ → ℚ) (d : ℕ → List ℕ → ℚ) (K m : ℕ)
    (order : List ℕ) (i : ℕ) :
    ∀ bins, (∀ j ∈ order, j ≠ i) →
      (doPass D d K m order bins).getD i (-1) = bins.getD i (-1) := by
  induction order with
  | nil => intro bins _; rfl
  | cons j rest ih =>
    intro bins h
    have h1 : doPass D d K m (j :: rest) bins
        = doPass D d K m rest (evalPoint D d K m bins j) := rfl
    rw [h1, ih (evalPoint D d K m bins j) (fun j2 hj2 => h j2 (List.mem_cons_of_mem j hj2))]
    exact evalPoint_getD_ne D d K m bins j i (h j (List.mem_cons_self j rest))

/-- The whole loop leaves the label at `i` unchanged when no visit order ever
contains `i`. -/
theorem fitLoop_getD_ne (D : ℕ → ℕ → ℚ) (d : ℕ → List ℕ → ℚ) (K m : ℕ)
    (orders : ℕ → List ℕ) (i : ℕ) (hord : ∀ k, ∀ j ∈ orders k, j ≠ i) (fuel : ℕ) :
    ∀ i0 bins, ((fitLoop D d K m orders fuel i0 bins).1).getD i (-1) = bins.getD i (-1) := by
  induction fuel with
  | zero => intro i0 bins; rfl
  | succ fuel ih =>
    intro i0 bins
    show ((if doPass D d K m (orders i0) bins = bins
        then (doPass D d K m (orders i0) bins, i0 + 1, true)
        else fitLoop D d K m orders fuel (i0 + 1) (doPass D d K m (orders i0) bins)).1).getD
        i (-1) = bins.getD i (-1)
    by_cases h : doPass D d K m (orders i0) bins = bins
    · rw [if_pos h]
      show (doPass D d K m (orders i0) bins).getD i (-1) = bins.getD i (-1)
      exact doPass_getD_ne D d K m (orders i0) i bins (hord i0)
    · rw [if_neg h]
      rw [ih (i0 + 1) (doPass D d K m (orders i0) bins)]
      exact doPass_getD_ne D d K m (orders i0) i bins (hord i0)

/-- Members of `pointsToAssign` are exactly the indices initially labelled
`-1`. -/
theorem mem_pointsToAssign (bins : List ℤ) (j : ℕ) (hj : j ∈ pointsToAssign bins) :
    bins.getD j (-1) = -1 := by
  unfold pointsToAssign at hj
  rw [List.mem_filter] at hj
  obtain ⟨hr, hv⟩ := hj
  have hlen : j < bins.length := List.mem_range.mp hr
  have hv2 : bins.getD j 0 = -1 := by simpa using hv
  rw [List.getD_eq_getElem bins (-1) hlen]
  rw [List.getD_eq_getElem bins 0 hlen] at hv2
  exact hv2

end BinX

/-- C6: in `fit_cluster` of `bin_x/core/clustering/algorithm.py`, a point
whose initial label is not `-1` keeps exactly that label in the returned
list: the reassignable points are computed once at entry as the points
initially labelled `-1`, every pass visits a permutation of that fixed set
(`permO` models `np.random.permutation`), and so pre-seeded points are never
re-evaluated or reassigned in any pass. -/
theorem fit_cluster_preserves_seeded (D : ℕ → ℕ → ℚ) (d : ℕ → List ℕ → ℚ)
    (K m maxIterations : ℕ) (permO : ℕ → List ℕ → List ℕ) (initialBins : List ℤ) (i : ℕ)
    (hperm : ∀ k l, (permO k l).Perm l)
    (hi : initialBins.getD i (-1) ≠ -1) :
    (BinX.fit_cluster D d K m maxIterations permO initialBins).getD i (-1)
      = initialBins.getD i (-1) := by
  apply BinX.fitLoop_getD_ne
  intro k j hj
  have hjp : j ∈ BinX.pointsToAssign initialBins :=
    ((hperm k (BinX.pointsToAssign initialBins)).mem_iff).mp hj
  have hjv := BinX.mem_pointsToAssign initialBins j hjp
  intro hji
  rw [hji] at hjv
  exact hi hjv

/-- Witness for `fit_cluster_preserves_seeded` at a concrete input: labels
`[0, -1]`, the seeded point `0` keeps label `0`. -/
theorem fit_cluster_preserves_seeded_witness :
    (∀ k l, ((fun (_ : ℕ) (l2 : List ℕ) => l2) k l).Perm l) ∧
    ([(0 : ℤ), -1].getD 0 (-1) ≠ -1) ∧
    (BinX.fit_cluster (fun _ _ => 0) (fun _ _ => 0) 1 1 2 (fun _ l => l) [0, -1]).getD 0 (-1)
      = [(0 : ℤ), -1].getD 0 (-1) :=
  ⟨fun _ _ => List.Perm.refl _, by decide,
    fit_cluster_preserves_seeded (fun _ _ => 0) (fun _ _ => 0) 1 1 2 (fun _ l => l)
      [0, -1] 0 (fun _ _ => List.Perm.refl _) (by decide)⟩

/-- C2: evaluation of `find_m_nearest_idx`
(`bin_x/core/clustering/distance_matrix.py`) at the failing input
`m = 3`, `p_i = 0`, `selected_idx = [0, 1]` (a cluster of two members that
contains the query point itself): the `len(selected_idx) < m` branch returns
`selected_idx` unchanged, so the result contains the query index `0` —
contradicting the claim and the function's own docstring, which promises that
`p` is never considered a nearest neighbor of `p`. -/
theorem find_m_nearest_idx_returns_query :
    BinX.find_m_nearest_idx 3 0 4 (fun _ _ => 0) [0, 1] = [0, 1] ∧
    0 ∈ BinX.find_m_nearest_idx 3 0 4 (fun _ _ => 0) [0, 1] :=
  ⟨by decide, by decide⟩

namespace Cli

/-- Invariant proof for the `np.argmax` scan: `g` is the value at each
position of the full list; the champion so far is at `bestI < cur` with value
`best`; all earlier positions are bounded by `best` and positions before
`bestI` are strictly below it.  The scan returns the first position of the
maximum. -/
theorem argmaxAux_g (g : ℕ → ℕ) (rest : List ℕ) :
    ∀ best cur bestI, bestI < cur → best = g bestI →
    (∀ t, t < rest.length → rest.getD t 0 = g (cur + t)) →
    (∀ j, j < cur → g j ≤ best) →
    (∀ j, j < bestI → g j < best) →
    (argmaxAux rest best cur bestI < cur + rest.length) ∧
    (∀ j, j < cur + rest.length → g j ≤ g (argmaxAux rest best cur bestI)) ∧
    (∀ j, j < argmaxAux rest best cur bestI → g j < g (argmaxAux rest best cur bestI)) := by
  induction rest with
  | nil =>
    intro best cur bestI hbc hbv _ hle hstrict
    simp only [argmaxAux]
    refine ⟨by simpa using Nat.lt_of_lt_of_le hbc (Nat.le_refl cur), ?_, ?_⟩
    · intro j hj
      rw [← hbv]
      exact hle j (by simpa using hj)
    · intro j hj
      rw [← hbv]
      exact hstrict j hj
  | cons v rest2 ih =>
    intro best cur bestI hbc hbv hcoh hle hstrict
    simp only [argmaxAux]
    have hv : v = g cur := by
      have := hcoh 0 (Nat.succ_pos rest2.length)
      simpa using this
    have hcoh2 : ∀ t, t < rest2.length → rest2.getD t 0 = g ((cur + 1) + t) := by
      intro t ht
      have := hcoh (t + 1) (by simpa using Nat.succ_lt_succ ht)
      have harith : cur + (t + 1) = (cur + 1) + t := by omega
      rw [harith] at this
      simpa using this
    by_cases hcmp : best < v
    · rw [if_pos hcmp]
      have hres := ih v (cur + 1) cur (Nat.lt_succ_self cur) hv hcoh2
        (fun j hj => by
          rcases Nat.lt_succ_iff_lt_or_eq.mp hj with h | h
          · exact Nat.le_of_lt (Nat.lt_of_le_of_lt (hle j h) hcmp)
          · subst h; rw [hv])
        (fun j hj => Nat.lt_of_le_of_lt (hle j hj) hcmp)
      have harith : (cur + 1) + rest2.length = cur + (v :: rest2).length := by
        simp; omega
      rw [harith] at hres
      exact hres
    · rw [if_neg hcmp]
      have hres := ih best (cur + 1) bestI (Nat.lt_succ_of_lt hbc) hbv hcoh2
        (fun j hj => by
          rcases Nat.lt_succ_iff_lt_or_eq.mp hj with h | h
          · exact hle j h
          · subst h; rw [← hv]; exact Nat.le_of_not_lt hcmp)
        hstrict
      have harith : (cur + 1) + rest2.length = cur + (v :: rest2).length := by
        simp; omega
      rw [harith] at hres
      exact hres

/-- Specification of `argmax` on a non-empty list: it is a valid position,
its value is maximal, and the values at all earlier positions are strictly
smaller (first position of the maximum, as `np.argmax` documents). -/
theorem argmax_spec (l : List ℕ) (hl : l ≠ []) :
    argmax l < l.length ∧
    (∀ j, j < l.length → l.getD j 0 ≤ l.getD (argmax l) 0) ∧
    (∀ j, j < argmax l → l.getD j 0 < l.getD (argmax l) 0) := by
  cases l with
  | nil => exact absurd rfl hl
  | cons v rest =>
    have h := argmaxAux_g (fun j => (v :: rest).getD j 0) rest v 1 0 Nat.one_pos
      (by simp)
      (fun t ht => by
        have harith : 1 + t = t + 1 := by omega
        rw [harith]
        simp)
      (fun j hj => by
        interval_cases j
        · simp)
      (fun j hj => by omega)
    have hlen : 1 + rest.length = (v :: rest).length := by simp; omega
    rw [hlen] at h
    exact h

/-- Elements are bounded by the `foldr max` of their list. -/
theorem le_foldr_max (xs : List ℕ) : ∀ a ∈ xs, a ≤ xs.foldr max 0 := by
  induction xs with
  | nil => intro a ha; exact absurd ha (List.not_mem_nil a)
  | cons x rest ih =>
    intro a ha
    rcases List.mem_cons.mp ha with h | h
    · subst h; exact le_max_left _ _
    · exact Nat.le_trans (ih a h) (le_max_right _ _)

/-- The `v`-th entry of `bincount xs` is the number of occurrences of `v`. -/
theorem bincount_getD (xs : List ℕ) (hne : xs ≠ []) (v : ℕ)
    (hv : v < xs.foldr max 0 + 1) :
    (bincount xs).getD v 0 = xs.count v := by
  cases xs with
  | nil => exact absurd rfl hne
  | cons x rest =>
    show ((List.range ((x :: rest).foldr max 0 + 1)).map
        (fun v2 => (x :: rest).count v2)).getD v 0 = (x :: rest).count v
    rw [List.getD_eq_getElem _ 0 (by simpa using hv)]
    simp

/-- The length of `bincount` on a non-empty list is `max + 1`. -/
theorem bincount_length (xs : List ℕ) (hne : xs ≠ []) :
    (bincount xs).length = xs.foldr max 0 + 1 := by
  cases xs with
  | nil => exact absurd rfl hne
  | cons x rest => simp [bincount]

end Cli

/-- C10: the aggregation step of `perform_clustering`
(`bin_x/cli/clustering.py`, `ch_bin/cli/clustering.py`) assigns a parent
entity with a non-empty list of fragment labels the most frequent label among
its fragments, with ties broken by the lowest label id: the elected label's
occurrence count is maximal, and any label with the same count is at least
the elected label. -/
theorem aggregateBin_majority (rows : List (ℕ × ℕ)) (p : ℕ)
    (hne : (rows.filter (fun r => r.1 = p)).map Prod.snd ≠ []) :
    (∀ v : ℕ, ((rows.filter (fun r => r.1 = p)).map Prod.snd).count v
        ≤ ((rows.filter (fun r => r.1 = p)).map Prod.snd).count (Cli.aggregateBin rows p)) ∧
    (∀ v : ℕ, ((rows.filter (fun r => r.1 = p)).map Prod.snd).count v
        = ((rows.filter (fun r => r.1 = p)).map Prod.snd).count (Cli.aggregateBin rows p) →
      Cli.aggregateBin rows p ≤ v) := by
  set xs := (rows.filter (fun r => r.1 = p)).map Prod.snd with hxs
  have he : Cli.aggregateBin rows p = Cli.argmax (Cli.bincount xs) := rfl
  set M := xs.foldr max 0 with hM
  have hbl : (Cli.bincount xs).length = M + 1 := Cli.bincount_length xs hne
  have hblne : Cli.bincount xs ≠ [] := by
    intro h
    rw [h] at hbl
    simp at hbl
  obtain ⟨hlt, hmax, hfirst⟩ := Cli.argmax_spec (Cli.bincount xs) hblne
  rw [hbl] at hlt
  have heM : Cli.aggregateBin rows p ≤ M := by rw [he]; omega
  have hcount_e : (Cli.bincount xs).getD (Cli.argmax (Cli.bincount xs)) 0
      = xs.count (Cli.aggregateBin rows p) := by
    rw [← he]
    exact Cli.bincount_getD xs hne _ (by omega)
  have hbig : ∀ v : ℕ, M < v → xs.count v = 0 := by
    intro v hv
    by_contra h
    have hmem : v ∈ xs := List.count_pos_iff.mp (Nat.pos_of_ne_zero h)
    exact absurd (Cli.le_foldr_max xs v hmem) (by omega)
  constructor
  · intro v
    by_cases hvM : v ≤ M
    · have h1 := hmax v (by omega)
      rw [Cli.bincount_getD xs hne v (by omega), hcount_e] at h1
      exact h1
    · rw [hbig v (by omega)]
      exact Nat.zero_le _
  · intro v hv
    by_cases hvM : v ≤ M
    · by_contra hvelt
      have hvlt : v < Cli.argmax (Cli.bincount xs) := by rw [← he]; omega
      have h1 := hfirst v hvlt
      rw [Cli.bincount_getD xs hne v (by omega), hcount_e] at h1
      omega
    · omega

/-- Witness for `aggregateBin_majority` at a concrete input: parent `5` has
fragment labels `[0, 1]` (a tie), and the elected label `0` (the lowest tied
label id) has maximal count and is at most any tied label. -/
theorem aggregateBin_majority_witness :
    (([((5 : ℕ), (0 : ℕ)), (5, 1), (6, 1)].filter (fun r => r.1 = 5)).map Prod.snd ≠ []) ∧
    Cli.aggregateBin [((5 : ℕ), (0 : ℕ)), (5, 1), (6, 1)] 5 = 0 ∧
    (∀ v : ℕ, (([((5 : ℕ), (0 : ℕ)), (5, 1), (6, 1)].filter (fun r => r.1 = 5)).map
        Prod.snd).count v
      ≤ (([((5 : ℕ), (0 : ℕ)), (5, 1), (6, 1)].filter (fun r => r.1 = 5)).map Prod.snd).count
        (Cli.aggregateBin [((5 : ℕ), (0 : ℕ)), (5, 1), (6, 1)] 5)) :=
  ⟨by decide, by decide,
    (aggregateBin_majority [((5 : ℕ), (0 : ℕ)), (5, 1), (6, 1)] 5 (by decide)).1⟩

/-- C3: the backend policy of `solve_qp` (`bin_x/core/clustering/solve_qp.py`,
`ch_bin/core/clustering/solve_qp.py`).  Requesting `"quadprog"` attempts the
active-set backend first and on any solver failure falls back to the
interior-point backend exactly once (first conjunct, the exact shape of the
computation); if the interior-point backend then also fails, that failure
propagates to the caller — no default value is returned (second conjunct);
requesting `"cvxopt"` calls the interior-point backend directly and no
fallback occurs — the result never depends on the active-set backend (third
conjunct). -/
theorem solve_qp_fallback_policy {n g e : ℕ}
    (qpB cvxB : BinX.QPInput n g e → Except BinX.SolverFailure (Vec n))
    (inp : BinX.QPInput n g e) :
    (BinX.solve_qp qpB cvxB inp "quadprog"
      = match qpB inp with
        | .ok v => .ok v
        | .error _ => (cvxB inp).mapError BinX.QPError.solverFailure) ∧
    (∀ e1 e2, qpB inp = .error e1 → cvxB inp = .error e2 →
      BinX.solve_qp qpB cvxB inp "quadprog" = .error (BinX.QPError.solverFailure e2)) ∧
    (BinX.solve_qp qpB cvxB inp "cvxopt" = (cvxB inp).mapError BinX.QPError.solverFailure) := by
  refine ⟨rfl, ?_, rfl⟩
  intro e1 e2 h1 h2
  show (match qpB inp with
    | .ok v => Except.ok v
    | .error _ => (cvxB inp).mapError BinX.QPError.solverFailure)
    = .error (BinX.QPError.solverFailure e2)
  rw [h1, h2]
  rfl

/-- Witness for `solve_qp_fallback_policy` at a concrete input: both backends
fail, and the interior-point backend's failure is the error surfaced by
`solve_qp` for the `"quadprog"` request. -/
theorem solve_qp_fallback_policy_witness :
    BinX.solve_qp (n := 1) (g := 1) (e := 1)
        (fun _ => .error (.valueError "matrix G is not positive definite"))
        (fun _ => .error (.valueError "CVXOPT failed because sub-optimal solution."))
        ⟨0, 0, 0, 0, none, none⟩ "quadprog"
      = .error (BinX.QPError.solverFailure
          (.valueError "CVXOPT failed because sub-optimal solution.")) :=
  (solve_qp_fallback_policy
      (fun _ => .error (.valueError "matrix G is not positive definite"))
      (fun _ => .error (.valueError "CVXOPT failed because sub-optimal solution."))
      ⟨0, 0, 0, 0, none, none⟩).2.1 _ _ rfl rfl

/-- C4: `convex_hull_distance` (`bin_x/core/clustering/hull_distance.py`,
`ch_bin/core/clustering/hull_distance.py`) solves the QP whose cost matrix is
`P = 2·XᵀX` (entries `2·⟨pᵢ, pⱼ⟩`, with `X` the reference points as columns),
whose linear term is `q = -2·Xᵀx`, whose equality constraint makes the
coefficients sum to `1` and whose inequality constraints `-I·α ≤ 0` make all
coefficients non-negative; the returned value is the Euclidean norm of
`X·α - x`; in particular every successfully returned distance is `≥ 0`. -/
theorem convex_hull_distance_spec {n dd : ℕ} (query : Vec dd) (points : Mat n dd)
    (qpB cvxB : BinX.QPInput n n 1 → Except BinX.SolverFailure (Vec n)) (solver : String) :
    (∀ i j, (BinX.convexQPInput query points).matP i j
        = 2 * ∑ t, points i t * points j t) ∧
    (∀ i, (BinX.convexQPInput query points).vecQ i = -2 * ∑ t, query t * points i t) ∧
    ((BinX.convexQPInput query points).matA = some (fun _ _ => 1) ∧
      (BinX.convexQPInput query points).vecB = some (fun _ => 1)) ∧
    (∀ i j, (BinX.convexQPInput query points).matG i j
        = if i = j then (-1 : ℝ) else 0) ∧
    ((BinX.convexQPInput query points).vecH = 0) ∧
    (BinX.convex_hull_distance query points qpB cvxB solver
      = (BinX.solve_qp qpB cvxB (BinX.convexQPInput query points) solver).map
          (fun alpha => euclNorm (fun t => (∑ i, alpha i * points i t) - query t))) ∧
    (∀ r, BinX.convex_hull_distance query points qpB cvxB solver = .ok r → 0 ≤ r) := by
  refine ⟨?_, ?_, ⟨rfl, rfl⟩, ?_, rfl, ?_, ?_⟩
  · intro i j
    show ((2 : ℝ) • (points * pointsᵀ)) i j = 2 * ∑ t, points i t * points j t
    simp [Matrix.mul_apply]
  · intro i
    show ((-2 : ℝ) • Matrix.vecMul query pointsᵀ) i = -2 * ∑ t, query t * points i t
    simp [Matrix.vecMul, Matrix.dotProduct]
  · intro i j
    show (-(1 : Mat n n)) i j = if i = j then (-1 : ℝ) else 0
    by_cases h : i = j
    · simp [h, Matrix.one_apply]
    · simp [h, Matrix.one_apply]
  · show (match BinX.solve_qp qpB cvxB (BinX.convexQPInput query points) solver with
      | .ok alpha => Except.ok (euclNorm (Matrix.vecMul alpha points - query))
      | .error err => Except.error err) = _
    cases h : BinX.solve_qp qpB cvxB (BinX.convexQPInput query points) solver with
    | ok alpha =>
      show Except.ok (euclNorm (Matrix.vecMul alpha points - query)) = _
      have hv : (Matrix.vecMul alpha points - query)
          = fun t => (∑ i, alpha i * points i t) - query t := by
        funext t
        simp [Matrix.vecMul, Matrix.dotProduct]
      rw [hv]
      rfl
    | error err => rfl
  · intro r hr
    revert hr
    show (match BinX.solve_qp qpB cvxB (BinX.convexQPInput query points) solver with
      | .ok alpha => Except.ok (euclNorm (Matrix.vecMul alpha points - query))
      | .error err => Except.error err) = Except.ok r → 0 ≤ r
    cases BinX.solve_qp qpB cvxB (BinX.convexQPInput query points) solver with
    | ok alpha =>
      intro hr
      have : euclNorm (Matrix.vecMul alpha points - query) = r := by
        exact Except.ok.inj hr
      rw [← this]
      exact Real.sqrt_nonneg _
    | error err => intro hr; exact absurd hr (by simp)

/-- C9: the distance matrix produced by `create_in_mem_distance_matrix`
(`ch_bin/core/clustering/distance_matrix.py`; `create_distance_matrix` of
`bin_x/core/clustering/distance_matrix.py` computes the same matrix) has
entries equal to the Euclidean distance between the samples, is symmetric,
non-negative, has zero diagonal, and satisfies the triangle inequality. -/
theorem create_in_mem_distance_matrix_spec {N dd : ℕ} (arr : Fin N → Vec dd)
    (i j k : Fin N) :
    BinX.create_distance_matrix arr i j = ChBin.create_in_mem_distance_matrix arr i j ∧
    ChBin.create_in_mem_distance_matrix arr i j
      = dist (asEuclidean (arr i)) (asEuclidean (arr j)) ∧
    ChBin.create_in_mem_distance_matrix arr i j
      = ChBin.create_in_mem_distance_matrix arr j i ∧
    0 ≤ ChBin.create_in_mem_distance_matrix arr i j ∧
    ChBin.create_in_mem_distance_matrix arr i i = 0 ∧
    ChBin.create_in_mem_distance_matrix arr i k
      ≤ ChBin.create_in_mem_distance_matrix arr i j
        + ChBin.create_in_mem_distance_matrix arr j k := by
  have hdist : ∀ a b : Fin N, ChBin.create_in_mem_distance_matrix arr a b
      = dist (asEuclidean (arr a)) (asEuclidean (arr b)) := by
    intro a b
    rw [EuclideanSpace.dist_eq]
    show Real.sqrt (∑ t, (arr a t - arr b t) ^ 2) = _
    congr 1
    apply Finset.sum_congr rfl
    intro t _
    rw [Real.dist_eq, sq_abs]
    rfl
  refine ⟨rfl, hdist i j, ?_, ?_, ?_, ?_⟩
  · rw [hdist i j, hdist j i]; exact dist_comm _ _
  · rw [hdist i j]; exact dist_nonneg
  · rw [hdist i i]; exact dist_self _
  · rw [hdist i k, hdist i j, hdist j k]; exact dist_triangle _ _ _

/-- Witness for `convex_hull_distance_spec` at a concrete input: a single
zero reference point and a zero query, backends returning `α = (1)`; the
computed distance is `0` and the non-negativity conclusion applies to it. -/
theorem convex_hull_distance_spec_witness :
    BinX.convex_hull_distance (fun _ : Fin 1 => (0 : ℝ)) (0 : Mat 1 1)
        (fun _ => .ok (fun _ => 1)) (fun _ => .ok (fun _ => 1)) "quadprog" = .ok 0 ∧
    (0 : ℝ) ≤ 0 := by
  have hEval : BinX.convex_hull_distance (fun _ : Fin 1 => (0 : ℝ)) (0 : Mat 1 1)
      (fun _ => .ok (fun _ => 1)) (fun _ => .ok (fun _ => 1)) "quadprog" = .ok 0 := by
    show Except.ok (euclNorm (Matrix.vecMul (fun _ => 1) (0 : Mat 1 1)
        - (fun _ : Fin 1 => (0 : ℝ)))) = Except.ok 0
    congr 1
    simp [euclNorm]
  exact ⟨hEval,
    (convex_hull_distance_spec (fun _ : Fin 1 => (0 : ℝ)) (0 : Mat 1 1)
      (fun _ => .ok (fun _ => 1)) (fun _ => .ok (fun _ => 1)) "quadprog").2.2.2.2.2.2 0 hEval⟩

namespace BinX

/-- One execution of the perturbation-loop body on a symmetric non-PD matrix
produces a positive definite matrix, provided `mineig` under-approximates the
Rayleigh quotient (as the minimum eigenvalue does) and is non-positive. -/
theorem npd_step_posdef {k : ℕ} (mineig spacing : ℝ) (A3 : Mat k k)
    (hsym : A3ᵀ = A3) (hsp : 0 < spacing)
    (hlowA : ∀ x : Vec k, mineig * (x ⬝ᵥ x) ≤ x ⬝ᵥ (A3 *ᵥ x))
    (hml : mineig ≤ 0) (kk : ℕ) (hkk : 1 ≤ kk) :
    (A3 + (-mineig * (kk : ℝ) ^ 2 + spacing) • (1 : Mat k k)).PosDef := by
  constructor
  · show (A3 + (-mineig * (kk : ℝ) ^ 2 + spacing) • (1 : Mat k k))ᴴ = _
    rw [Matrix.conjTranspose_eq_transpose_of_trivial, Matrix.transpose_add,
      Matrix.transpose_smul, Matrix.transpose_one, hsym]
  · intro x hx
    rw [star_trivial]
    have hxx : 0 < x ⬝ᵥ x := by
      have hiff := Matrix.dotProduct_star_self_pos_iff (v := x)
      rw [star_trivial] at hiff
      exact hiff.mpr hx
    have hexp : x ⬝ᵥ ((A3 + (-mineig * (kk : ℝ) ^ 2 + spacing) • (1 : Mat k k)) *ᵥ x)
        = x ⬝ᵥ (A3 *ᵥ x) + (-mineig * (kk : ℝ) ^ 2 + spacing) * (x ⬝ᵥ x) := by
      rw [Matrix.add_mulVec, Matrix.dotProduct_add, Matrix.smul_mulVec_assoc,
        Matrix.one_mulVec, Matrix.dotProduct_smul, smul_eq_mul]
    rw [hexp]
    have hkk2 : (1 : ℝ) ≤ (kk : ℝ) ^ 2 := by
      have h1 : (1 : ℝ) ≤ (kk : ℝ) := by exact_mod_cast hkk
      nlinarith
    have hstep : -mineig + spacing ≤ -mineig * (kk : ℝ) ^ 2 + spacing := by nlinarith
    have hA := hlowA x
    nlinarith [mul_le_mul_of_nonneg_right hstep (le_of_lt hxx), mul_pos hsp hxx]

/-- The perturbation loop returns a positive definite matrix unchanged. -/
theorem npdLoop_of_posdef {k : ℕ} (mineigO : Mat k k → ℝ) (spacing : ℝ)
    (B : Mat k k) (hB : B.PosDef) :
    ∀ fuel kk, npdLoop mineigO spacing fuel kk B = B := by
  intro fuel kk
  cases fuel with
  | zero => rfl
  | succ fuel =>
    show (if is_positive_definite B then B
      else npdLoop mineigO spacing fuel (kk + 1)
        (B + (-(mineigO B) * (kk : ℝ) ^ 2 + spacing) • (1 : Mat k k))) = B
    rw [if_pos (show is_positive_definite B from hB)]

/-- Stability and correctness of the perturbation loop on a symmetric start
matrix: one unit of fuel already yields the final result, which is symmetric
and positive definite. -/
theorem npdLoop_stable {k : ℕ} (mineigO : Mat k k → ℝ) (spacing : ℝ) (hsp : 0 < spacing)
    (hlow : ∀ M : Mat k k, ∀ x : Vec k, mineigO M * (x ⬝ᵥ x) ≤ x ⬝ᵥ (M *ᵥ x))
    (hnp : ∀ M : Mat k k, Mᵀ = M → ¬M.PosDef → mineigO M ≤ 0)
    (A3 : Mat k k) (hsym : A3ᵀ = A3) (fuel : ℕ) (hfuel : 1 ≤ fuel) :
    npdLoop mineigO spacing fuel 1 A3 = npdLoop mineigO spacing 1 1 A3 ∧
    (npdLoop mineigO spacing fuel 1 A3)ᵀ = npdLoop mineigO spacing fuel 1 A3 ∧
    (npdLoop mineigO spacing fuel 1 A3).PosDef := by
  obtain ⟨f, rfl⟩ : ∃ f, fuel = f + 1 := ⟨fuel - 1, by omega⟩
  by_cases hPD : A3.PosDef
  · rw [npdLoop_of_posdef mineigO spacing A3 hPD (f + 1) 1,
      npdLoop_of_posdef mineigO spacing A3 hPD 1 1]
    exact ⟨rfl, hsym, hPD⟩
  · have hml : mineigO A3 ≤ 0 := hnp A3 hsym hPD
    have hBPD : (A3 + (-(mineigO A3) * ((1 : ℕ) : ℝ) ^ 2 + spacing) • (1 : Mat k k)).PosDef :=
      npd_step_posdef (mineigO A3) spacing A3 hsym hsp (hlow A3) hml 1 le_rfl
    have hstep : ∀ f2, npdLoop mineigO spacing (f2 + 1) 1 A3
        = npdLoop mineigO spacing f2 2
            (A3 + (-(mineigO A3) * ((1 : ℕ) : ℝ) ^ 2 + spacing) • (1 : Mat k k)) := by
      intro f2
      show (if is_positive_definite A3 then A3
        else npdLoop mineigO spacing f2 (1 + 1)
          (A3 + (-(mineigO A3) * ((1 : ℕ) : ℝ) ^ 2 + spacing) • (1 : Mat k k))) = _
      rw [if_neg (show ¬is_positive_definite A3 from hPD)]
    have hsymB : (A3 + (-(mineigO A3) * ((1 : ℕ) : ℝ) ^ 2 + spacing) • (1 : Mat k k))ᵀ
        = A3 + (-(mineigO A3) * ((1 : ℕ) : ℝ) ^ 2 + spacing) • (1 : Mat k k) := by
      rw [Matrix.transpose_add, Matrix.transpose_smul, Matrix.transpose_one, hsym]
    rw [hstep f, hstep 0,
      npdLoop_of_posdef mineigO spacing _ hBPD f 2,
      npdLoop_of_posdef mineigO spacing _ hBPD 0 2]
    exact ⟨rfl, hsymB, hBPD⟩

end BinX

/-- C7: `nearest_positive_definite` of `bin_x/core/clustering/positive_def.py`
on a symmetric input terminates — in exact arithmetic one perturbation-loop
iteration always suffices, so the fuel-indexed model is independent of the
fuel (first conjunct) — and its result is a symmetric matrix on which the
Cholesky factorization of `is_positive_definite` succeeds (the matrix is
positive definite).  The numeric library oracles carry their documented
contracts: `np.spacing(norm(·))` is positive, and
`np.min(np.real(np.linalg.eigvals(·)))` bounds the Rayleigh quotient from
below and is non-positive on a symmetric non-positive-definite matrix.
Determinism is inherent: the model is a pure function of the input and the
library oracles. -/
theorem nearest_positive_definite_spec {k : ℕ}
    (svdO : Mat k k → Vec k × Mat k k) (mineigO : Mat k k → ℝ) (spacingO : Mat k k → ℝ)
    (mat_a : Mat k k)
    (hA : mat_aᵀ = mat_a)
    (hspacing : ∀ M : Mat k k, 0 < spacingO M)
    (hlow : ∀ M : Mat k k, ∀ x : Vec k, mineigO M * (x ⬝ᵥ x) ≤ x ⬝ᵥ (M *ᵥ x))
    (hnp : ∀ M : Mat k k, Mᵀ = M → ¬M.PosDef → mineigO M ≤ 0) :
    (∀ fuel, 1 ≤ fuel →
      BinX.nearest_positive_definite svdO mineigO spacingO fuel mat_a
        = BinX.nearest_positive_definite svdO mineigO spacingO 1 mat_a) ∧
    ((BinX.nearest_positive_definite svdO mineigO spacingO 1 mat_a)ᵀ
      = BinX.nearest_positive_definite svdO mineigO spacingO 1 mat_a) ∧
    BinX.is_positive_definite (BinX.nearest_positive_definite svdO mineigO spacingO 1 mat_a) := by
  set mat_b := ((1 : ℝ) / 2) • (mat_a + mat_aᵀ) with hb
  set mat_h := (svdO mat_b).2ᵀ * Matrix.diagonal (svdO mat_b).1 * (svdO mat_b).2 with hh
  set mat_a2 := ((1 : ℝ) / 2) • (mat_b + mat_h) with ha2
  set mat_a3 := ((1 : ℝ) / 2) • (mat_a2 + mat_a2ᵀ) with ha3
  have hsym : mat_a3ᵀ = mat_a3 := by
    rw [ha3, Matrix.transpose_smul, Matrix.transpose_add, Matrix.transpose_transpose,
      add_comm mat_a2ᵀ mat_a2]
  have hdef : ∀ fuel, BinX.nearest_positive_definite svdO mineigO spacingO fuel mat_a
      = if BinX.is_positive_definite mat_a3 then mat_a3
        else BinX.npdLoop mineigO (spacingO mat_a) fuel 1 mat_a3 := fun _ => rfl
  by_cases hPD : mat_a3.PosDef
  · refine ⟨fun fuel _ => by
        rw [hdef, hdef, if_pos (show BinX.is_positive_definite mat_a3 from hPD),
          if_pos (show BinX.is_positive_definite mat_a3 from hPD)], ?_, ?_⟩
    · rw [hdef, if_pos (show BinX.is_positive_definite mat_a3 from hPD)]; exact hsym
    · rw [hdef, if_pos (show BinX.is_positive_definite mat_a3 from hPD)]; exact hPD
  · have hst := BinX.npdLoop_stable mineigO (spacingO mat_a) (hspacing mat_a) hlow hnp
      mat_a3 hsym
    refine ⟨fun fuel hfuel => ?_, ?_, ?_⟩
    · rw [hdef, hdef, if_neg (show ¬BinX.is_positive_definite mat_a3 from hPD),
        if_neg (show ¬BinX.is_positive_definite mat_a3 from hPD), (hst fuel hfuel).1]
    · rw [hdef, if_neg (show ¬BinX.is_positive_definite mat_a3 from hPD)]
      exact (hst 1 le_rfl).2.1
    · rw [hdef, if_neg (show ¬BinX.is_positive_definite mat_a3 from hPD)]
      exact (hst 1 le_rfl).2.2

/-- Witness for `nearest_positive_definite_spec` at a concrete input: the
symmetric 1×1 matrix `(-4)`, with the exact 1×1 library oracles (the SVD
oracle returning zeros, the minimum eigenvalue of a 1×1 matrix being its
entry, and spacing 1); the repaired matrix is positive definite. -/
theorem nearest_positive_definite_spec_witness :
    (!![(-4 : ℝ)])ᵀ = !![(-4 : ℝ)] ∧
    BinX.is_positive_definite
      (BinX.nearest_positive_definite (fun _ => (fun _ => 0, 0)) (fun M => M 0 0)
        (fun _ => 1) 1 !![(-4 : ℝ)]) := by
  have hA : (!![(-4 : ℝ)])ᵀ = !![(-4 : ℝ)] := by
    ext i j
    fin_cases i
    fin_cases j
    rfl
  have hlow : ∀ (M : Mat 1 1) (x : Vec 1), M 0 0 * (x ⬝ᵥ x) ≤ x ⬝ᵥ (M *ᵥ x) := by
    intro M x
    apply le_of_eq
    simp [Matrix.dotProduct, Matrix.mulVec, Fin.sum_univ_one]
    ring
  have hnp : ∀ M : Mat 1 1, Mᵀ = M → ¬M.PosDef → M 0 0 ≤ 0 := by
    intro M hsym hPD
    by_contra hg
    push_neg at hg
    apply hPD
    constructor
    · show Mᴴ = M
      rw [Matrix.conjTranspose_eq_transpose_of_trivial, hsym]
    · intro x hx
      rw [star_trivial]
      have hx0 : x 0 ≠ 0 := by
        intro h0
        apply hx
        funext i
        fin_cases i
        exact h0
      have hform : x ⬝ᵥ (M *ᵥ x) = M 0 0 * (x 0 * x 0) := by
        simp [Matrix.dotProduct, Matrix.mulVec, Fin.sum_univ_one]
        ring
      rw [hform]
      exact mul_pos hg (mul_self_pos.mpr hx0)
  exact ⟨hA, (nearest_positive_definite_spec (fun _ => (fun _ => 0, 0)) (fun M => M 0 0)
    (fun _ => 1) !![(-4 : ℝ)] hA (fun _ => one_pos) hlow hnp).2.2⟩

namespace ChBin

/-- The dot product of a real vector with itself is non-negative. -/
theorem dot_self_nonneg {k : ℕ} (v : Vec k) : 0 ≤ v ⬝ᵥ v :=
  Finset.sum_nonneg fun i _ => mul_self_nonneg (v i)

/-- The Euclidean norm is the square root of the self dot product. -/
theorem euclNorm_eq_sqrt_dot {k : ℕ} (v : Vec k) : euclNorm v = Real.sqrt (v ⬝ᵥ v) := by
  unfold euclNorm Matrix.dotProduct
  congr 1
  apply Finset.sum_congr rfl
  intro t _
  rw [sq]

/-- For a matrix with orthonormal columns, the residual of the projection
`B Bᵀ` is orthogonal to the column space of `B`. -/
theorem proj_residual_orthogonal {dd r : ℕ} (basis : Mat dd r) (hB : basisᵀ * basis = 1)
    (w : Vec dd) (z : Vec r) :
    (w - basis *ᵥ (basisᵀ *ᵥ w)) ⬝ᵥ (basis *ᵥ z) = 0 := by
  have key : basisᵀ *ᵥ (w - basis *ᵥ (basisᵀ *ᵥ w)) = 0 := by
    rw [Matrix.mulVec_sub, Matrix.mulVec_mulVec, hB, Matrix.one_mulVec, sub_self]
  rw [Matrix.dotProduct_mulVec, ← Matrix.mulVec_transpose, key, Matrix.zero_dotProduct]

/-- Pythagoras: among all vectors of the column space of an orthonormal-column
matrix, the projection `B Bᵀ w` is (squared-)nearest to `w`. -/
theorem proj_minimal {dd r : ℕ} (basis : Mat dd r) (hB : basisᵀ * basis = 1)
    (w s : Vec dd) (hs : ∃ z, s = basis *ᵥ z) :
    (w - basis *ᵥ (basisᵀ *ᵥ w)) ⬝ᵥ (w - basis *ᵥ (basisᵀ *ᵥ w)) ≤ (w - s) ⬝ᵥ (w - s) := by
  obtain ⟨z, rfl⟩ := hs
  have hws : w - basis *ᵥ z
      = (w - basis *ᵥ (basisᵀ *ᵥ w)) + basis *ᵥ (basisᵀ *ᵥ w - z) := by
    rw [Matrix.mulVec_sub]
    exact (sub_add_sub_cancel w (basis *ᵥ (basisᵀ *ᵥ w)) (basis *ᵥ z)).symm
  rw [hws, Matrix.add_dotProduct, Matrix.dotProduct_add, Matrix.dotProduct_add,
    proj_residual_orthogonal basis hB w _,
    Matrix.dotProduct_comm (basis *ᵥ (basisᵀ *ᵥ w - z)),
    proj_residual_orthogonal basis hB w _]
  have hb := dot_self_nonneg (basis *ᵥ (basisᵀ *ᵥ w - z))
  linarith

/-- A sum-to-one combination of the points, centered by their mean, is the
same combination of the centered points. -/
theorem centered_of_sum_one {n dd : ℕ} (points : Mat n dd) (b : Vec n)
    (hb : ∑ i, b i = 1) (t : Fin dd) :
    Matrix.vecMul b points t - (∑ i, points i t) / n
      = ∑ i, b i * (points i t - (∑ i2, points i2 t) / n) := by
  have hsum : ∑ i, b i * (points i t - (∑ i2, points i2 t) / n)
      = (∑ i, b i * points i t) - (∑ i, b i) * ((∑ i2, points i2 t) / n) := by
    rw [Finset.sum_mul, ← Finset.sum_sub_distrib]
    apply Finset.sum_congr rfl
    intro i _
    ring
  have hv : Matrix.vecMul b points t = ∑ i, b i * points i t := rfl
  rw [hsum, hb, one_mul, hv]

/-- Conversely, every combination of the centered points, shifted by the
mean, is a sum-to-one combination of the points (`n > 0`). -/
theorem sum_one_of_centered {n dd : ℕ} (hn : 0 < n) (points : Mat n dd) (gam : Vec n) :
    ∃ b : Vec n, (∑ i, b i = 1) ∧
      ∀ t, Matrix.vecMul b points t
        = (∑ i, gam i * (points i t - (∑ i2, points i2 t) / n))
          + (∑ i2, points i2 t) / n := by
  have hn2 : (n : ℝ) ≠ 0 := Nat.cast_ne_zero.mpr hn.ne'
  refine ⟨fun i => gam i + (1 - ∑ i2, gam i2) / n, ?_, ?_⟩
  · rw [Finset.sum_add_distrib, Finset.sum_const, Finset.card_univ, Fintype.card_fin,
      nsmul_eq_mul, mul_div_cancel₀ _ hn2]
    ring
  · intro t
    have hL : Matrix.vecMul (fun i => gam i + (1 - ∑ i2, gam i2) / n) points t
        = (∑ i, gam i * points i t)
          + ((1 - ∑ i2, gam i2) / n) * (∑ i2, points i2 t) := by
      show ∑ i, (gam i + (1 - ∑ i2, gam i2) / n) * points i t = _
      rw [Finset.mul_sum, ← Finset.sum_add_distrib]
      apply Finset.sum_congr rfl
      intro i _
      ring
    have hR : (∑ i, gam i * (points i t - (∑ i2, points i2 t) / n))
          + (∑ i2, points i2 t) / n
        = ((∑ i, gam i * points i t)
          - (∑ i2, gam i2) * ((∑ i2, points i2 t) / n)) + (∑ i2, points i2 t) / n := by
      congr 1
      rw [Finset.sum_mul, ← Finset.sum_sub_distrib]
      apply Finset.sum_congr rfl
      intro i _
      ring
    rw [hL, hR]
    ring

/-- The objective of the affine-hull QP at `b` is the squared distance
`|X·b - x|²` shifted by the constant `-|x|²`. -/
theorem affine_qp_objective {n dd : ℕ} (query : Vec dd) (points : Mat n dd) (b : Vec n) :
    BinX.qpObjective (affineQPInput query points) b
      = (Matrix.vecMul b points - query) ⬝ᵥ (Matrix.vecMul b points - query)
        - query ⬝ᵥ query := by
  have h1 : b ⬝ᵥ ((affineQPInput query points).matP *ᵥ b)
      = 2 * ((Matrix.vecMul b points) ⬝ᵥ (Matrix.vecMul b points)) := by
    show b ⬝ᵥ (((2 : ℝ) • (points * pointsᵀ)) *ᵥ b) = _
    rw [Matrix.smul_mulVec_assoc, Matrix.dotProduct_smul, smul_eq_mul,
      ← Matrix.mulVec_mulVec, Matrix.dotProduct_mulVec, Matrix.mulVec_transpose]
  have h2 : (affineQPInput query points).vecQ ⬝ᵥ b
      = -2 * ((Matrix.vecMul b points) ⬝ᵥ query) := by
    show ((-2 : ℝ) • Matrix.vecMul query pointsᵀ) ⬝ᵥ b = _
    rw [Matrix.smul_dotProduct, smul_eq_mul, Matrix.vecMul_transpose]
    congr 1
    rw [Matrix.dotProduct_comm, Matrix.dotProduct_mulVec]
  show (1 / 2) * (b ⬝ᵥ ((affineQPInput query points).matP *ᵥ b))
      + (affineQPInput query points).vecQ ⬝ᵥ b = _
  rw [h1, h2, Matrix.sub_dotProduct, Matrix.dotProduct_sub, Matrix.dotProduct_sub,
    Matrix.dotProduct_comm query (Matrix.vecMul b points)]
  ring

/-- C8: for every query vector and non-empty reference set, the affine-hull
distance computed by `affine_hull_distance` (direct orthogonal projection
onto the span of the centered reference points, via the `scipy.linalg.orth`
basis oracle with its contract: orthonormal columns spanning exactly that
subspace) equals the distance obtained by `affine_hull_distance_qp` (the QP
with only the sum-to-one equality constraint), whenever the QP solver
returns a feasible optimizer of the QP objective. -/
theorem affine_hull_distance_equiv {n dd r : ℕ} (query : Vec dd) (points : Mat n dd)
    (basis : Mat dd r)
    (qpB cvxB : BinX.QPInput n 0 1 → Except BinX.SolverFailure (Vec n)) (solver : String)
    (alpha : Vec n)
    (hn : 0 < n)
    (hB : basisᵀ * basis = 1)
    (hspan : ∀ v : Vec dd, (∃ c : Vec r, v = basis *ᵥ c) ↔
      (∃ gam : Vec n, v = fun t => ∑ i, gam i * (points i t - (∑ i2, points i2 t) / n)))
    (hsolve : BinX.solve_qp qpB cvxB (affineQPInput query points) solver = .ok alpha)
    (hfeas : ∑ i, alpha i = 1)
    (hopt : ∀ beta : Vec n, (∑ i, beta i = 1) →
      BinX.qpObjective (affineQPInput query points) alpha
        ≤ BinX.qpObjective (affineQPInput query points) beta) :
    affine_hull_distance_qp query points qpB cvxB solver
      = .ok (affine_hull_distance query points basis) := by
  set m : Vec dd := fun t => (∑ i, points i t) / n with hm
  set w : Vec dd := query - m with hw
  have hop : affine_hull_distance query points basis
      = euclNorm (w - basis *ᵥ (basisᵀ *ᵥ w)) := by
    show euclNorm (((1 : Mat dd dd) - basis * (basisᵀ * basis)⁻¹ * basisᵀ) *ᵥ (query - m))
        = _
    congr 1
    rw [hB, inv_one, Matrix.mul_one, Matrix.sub_mulVec, Matrix.one_mulVec,
      ← Matrix.mulVec_mulVec]
  have hqp : affine_hull_distance_qp query points qpB cvxB solver
      = .ok (euclNorm (Matrix.vecMul alpha points - query)) := by
    show (match BinX.solve_qp qpB cvxB (affineQPInput query points) solver with
      | .ok a => Except.ok (euclNorm (Matrix.vecMul a points - query))
      | .error e => Except.error e) = _
    rw [hsolve]
  set Pw : Vec dd := basis *ᵥ (basisᵀ *ᵥ w) with hPw
  obtain ⟨gam0, hgam0⟩ :=
    (hspan Pw).mp ⟨basisᵀ *ᵥ w, rfl⟩
  obtain ⟨b0, hb0sum, hb0val⟩ := sum_one_of_centered hn points gam0
  have hb0X : Matrix.vecMul b0 points - query = Pw - w := by
    funext t
    have h1 := hb0val t
    have h2 : Pw t = ∑ i, gam0 i * (points i t - (∑ i2, points i2 t) / n) := by
      rw [hgam0]
    have hwt : w t = query t - (∑ i, points i t) / n := rfl
    show Matrix.vecMul b0 points t - query t = Pw t - w t
    rw [h1, h2, hwt]
    ring
  set salpha : Vec dd :=
    fun t => ∑ i, alpha i * (points i t - (∑ i2, points i2 t) / n) with hsa
  have halphaX : Matrix.vecMul alpha points - query = salpha - w := by
    funext t
    have h1 := centered_of_sum_one points alpha hfeas t
    have hwt : w t = query t - (∑ i, points i t) / n := rfl
    show Matrix.vecMul alpha points t - query t = salpha t - w t
    have hst : salpha t = ∑ i, alpha i * (points i t - (∑ i2, points i2 t) / n) := rfl
    rw [hst, ← h1, hwt]
    ring
  have hsalpha_span : ∃ z : Vec r, salpha = basis *ᵥ z := by
    obtain ⟨z, hz⟩ := (hspan salpha).mpr ⟨alpha, rfl⟩
    exact ⟨z, hz⟩
  have hneg : ∀ u v : Vec dd, (u - v) ⬝ᵥ (u - v) = (v - u) ⬝ᵥ (v - u) := by
    intro u v
    rw [← neg_sub v u, Matrix.neg_dotProduct, Matrix.dotProduct_neg, neg_neg]
  have hle1 : (Matrix.vecMul alpha points - query) ⬝ᵥ (Matrix.vecMul alpha points - query)
      ≤ (w - Pw) ⬝ᵥ (w - Pw) := by
    have hopt0 := hopt b0 hb0sum
    rw [affine_qp_objective, affine_qp_objective, hb0X, hneg Pw w] at hopt0
    linarith
  have hle2 : (w - Pw) ⬝ᵥ (w - Pw)
      ≤ (Matrix.vecMul alpha points - query) ⬝ᵥ (Matrix.vecMul alpha points - query) := by
    have hmin := proj_minimal basis hB w salpha hsalpha_span
    rw [halphaX, hneg salpha w]
    exact hmin
  have hsq : (Matrix.vecMul alpha points - query) ⬝ᵥ (Matrix.vecMul alpha points - query)
      = (w - Pw) ⬝ᵥ (w - Pw) := le_antisymm hle1 hle2
  rw [hqp, hop]
  congr 1
  rw [euclNorm_eq_sqrt_dot, euclNorm_eq_sqrt_dot, hsq]

end ChBin

/-- Witness for `ChBin.affine_hull_distance_equiv` at a concrete input: one
one-dimensional reference point `0`, query `0`, the empty orthonormal basis,
and backends returning the feasible optimizer `α = (1)`; both routes agree. -/
theorem affine_hull_distance_equiv_witness :
    ChBin.affine_hull_distance_qp (fun _ : Fin 1 => (0 : ℝ)) (0 : Mat 1 1)
        (fun _ => .ok (fun _ => 1)) (fun _ => .ok (fun _ => 1)) "quadprog"
      = .ok (ChBin.affine_hull_distance (fun _ : Fin 1 => (0 : ℝ)) (0 : Mat 1 1)
          (0 : Mat 1 0)) := by
  have hB : (0 : Mat 1 0)ᵀ * (0 : Mat 1 0) = 1 := by
    ext i j
    exact i.elim0
  have hspan : ∀ v : Vec 1, (∃ c : Vec 0, v = (0 : Mat 1 0) *ᵥ c) ↔
      (∃ gam : Vec 1, v = fun t => ∑ i, gam i *
        ((0 : Mat 1 1) i t - (∑ i2, (0 : Mat 1 1) i2 t) / (1 : ℕ))) := by
    intro v
    constructor
    · rintro ⟨c, rfl⟩
      refine ⟨0, ?_⟩
      funext t
      simp [Matrix.mulVec, Matrix.dotProduct]
    · rintro ⟨gam, rfl⟩
      refine ⟨0, ?_⟩
      funext t
      simp [Matrix.mulVec, Matrix.dotProduct]
  have hopt : ∀ beta : Vec 1, (∑ i, beta i = 1) →
      BinX.qpObjective (ChBin.affineQPInput (fun _ : Fin 1 => (0 : ℝ)) (0 : Mat 1 1))
          (fun _ => 1)
        ≤ BinX.qpObjective (ChBin.affineQPInput (fun _ : Fin 1 => (0 : ℝ)) (0 : Mat 1 1))
          beta := by
    intro beta hbeta
    have hba : beta = fun _ : Fin 1 => (1 : ℝ) := by
      funext i
      have h0 : beta 0 = 1 := by simpa [Fin.sum_univ_one] using hbeta
      have hi : i = 0 := Subsingleton.elim i 0
      rw [hi, h0]
    rw [hba]
  exact ChBin.affine_hull_distance_equiv (fun _ : Fin 1 => (0 : ℝ)) (0 : Mat 1 1)
    (0 : Mat 1 0) (fun _ => .ok (fun _ => 1)) (fun _ => .ok (fun _ => 1)) "quadprog"
    (fun _ => 1) (by decide) hB hspan rfl (by simp) hopt
